import Mathlib

/-!
Verification development for the goose workflow engine.

Shallow embedding of the orchestration core: conversations and their
alternation validator (src/goose/flow.py, src/goose/types/conversation.py),
node state and memoized task generation (src/goose/_internal/state.py,
src/goose/_internal/task.py), the argument hash, the dependency-extraction
walk and selective regeneration (src/goose/core.py), run-state
serialization, and per-task index allocation.

Python values are embedded as inductive types; machine integers as Nat;
fallible code returns Except.  Mutation is embedded as explicit state
passing: each mutating method becomes a function returning the new state.
-/

namespace Goose

/-- A message in a flow.py `Conversation`: either a `UserMessage` (payload:
its rendered text) or a `GooseResponse` wrapping a result of type `R`.
The alternation validator inspects only which of the two classes a message
belongs to. -/
inductive Msg (R : Type) where
| user (text : String)
| result (r : R)
deriving DecidableEq, Repr

/-- True iff the message is a `UserMessage` (the `isinstance` test used by
the validators). -/
def Msg.isUser {R : Type} : Msg R → Bool
| .user _ => true
| .result _ => false

/-- Embedding of `Conversation.alternates_starting_with_result` from
src/goose/flow.py (lines 42-61): empty is accepted; a leading
`UserMessage` is rejected; then the loop runs over `messages[1:]`,
rejecting any message of the same class as its predecessor. -/
def alternatesFlowLoop {R : Type} (lastIsUser : Bool) : List (Msg R) → Except String Unit
| [] => .ok ()
| m :: rest =>
  if m.isUser = lastIsUser then
    .error "Honk: Conversation must alternate between User and Result messages"
  else
    alternatesFlowLoop m.isUser rest

/-- Embedding of the flow.py validator entry: case split on empty / leading
user message, then the tail loop seeded with the first message's class. -/
def alternatesFlow {R : Type} : List (Msg R) → Except String Unit
| [] => .ok ()
| m :: rest =>
  if m.isUser then
    .error "Honk: User cannot start a conversation on a Task, must begin with a Result"
  else
    alternatesFlowLoop m.isUser rest

/-- Embedding of `ConversationState.alternates_starting_with_result` from
src/goose/types/conversation.py (lines 18-37).  Identical to the flow.py
validator except that its loop runs over all of `messages` — including
`messages[0]`, whose class was just recorded as `last_message_type`. -/
def alternatesTypes {R : Type} : List (Msg R) → Except String Unit
| [] => .ok ()
| m :: rest =>
  if m.isUser then
    .error "Honk: User cannot start a conversation on a Task, must begin with a Result"
  else
    alternatesFlowLoop m.isUser (m :: rest)

/-- The alternation property as the spec words it: the sequence is empty,
or begins with a result message and no two adjacent messages share type. -/
def specAlternationValid {R : Type} (msgs : List (Msg R)) : Bool :=
  match msgs with
  | [] => true
  | m :: _ =>
    !m.isUser && (msgs.zip msgs.tail).all (fun p => p.1.isUser != p.2.isUser)

/-- flow.py `Conversation`: the interleaved message list plus optional
system context (src/goose/flow.py lines 38-65).  The field validator is
`alternatesFlow`; it runs when pydantic constructs or re-validates the
model, not on in-place list mutation. -/
structure ConversationF (R : Type) where
  messages : List (Msg R)
  context : Option String
deriving DecidableEq, Repr

/-- `Conversation.awaiting_response` (flow.py line 63-65): the message
count is even. -/
def ConversationF.awaiting_response {R : Type} (c : ConversationF R) : Bool :=
  c.messages.length % 2 == 0

/-- flow.py `NodeState` (lines 87-125): task name, call index, conversation
and the stored input hash. -/
structure NodeStateF (R : Type) where
  task_name : String
  index : Nat
  conversation : ConversationF R
  last_input_hash : Nat
deriving DecidableEq, Repr

/-- flow.py `NodeState.result` (lines 93-99): read `messages[-1]`; return
its result when it is a `GooseResponse`, raise Honk when it is a
`UserMessage`.  On an empty list Python's `messages[-1]` itself fails
(IndexError), embedded as a distinct error. -/
def NodeStateF.result {R : Type} (s : NodeStateF R) : Except String R :=
  match s.conversation.messages.getLast? with
  | none => .error "IndexError: list index out of range"
  | some (.user _) => .error "Honk: Node awaiting response, has no result"
  | some (.result r) => .ok r

/-- flow.py `NodeState.add_result` (lines 105-121): with `overwrite`,
replace `messages[-1]` (append when the list is empty); otherwise append;
store the new hash when one is supplied.  No validation runs. -/
def NodeStateF.add_result {R : Type} (s : NodeStateF R) (result : R)
    (new_input_hash : Option Nat) (overwrite : Bool) :
    NodeStateF R :=
  let msgs :=
    if overwrite then
      if s.conversation.messages.isEmpty then [Msg.result result]
      else s.conversation.messages.dropLast ++ [Msg.result result]
    else
      s.conversation.messages ++ [Msg.result result]
  { s with
    conversation := { s.conversation with messages := msgs }
    last_input_hash := new_input_hash.getD s.last_input_hash }

/-- flow.py `NodeState.add_user_message` (lines 123-125): unconditionally
append the user message to the conversation's message list.  No check and
no error path exists in the code. -/
def NodeStateF.add_user_message {R : Type} (s : NodeStateF R) (text : String) :
    NodeStateF R :=
  { s with
    conversation :=
      { s.conversation with messages := s.conversation.messages ++ [Msg.user text] } }

/-- Conversation record used by the internal `NodeState`
(src/goose/_internal/state.py imports it from `goose._internal.conversation`,
a module absent from src/).  Modelled from the spec: the spec describes a
conversation of user and result messages with an optional system context;
the internal code stores them as two parallel lists, whose field names and
uses (`user_messages`, `result_messages`, `context`) are fixed by
state.py lines 33-72 and task.py lines 91-111. -/
structure ConversationI (R : Type) where
  user_messages : List String
  result_messages : List R
  context : Option String
deriving DecidableEq, Repr

/-- Internal `NodeState` (src/goose/_internal/state.py lines 27-72). -/
structure NodeStateI (R : Type) where
  task_name : String
  index : Nat
  conversation : ConversationI R
  last_hash : Nat
deriving DecidableEq, Repr

/-- Internal `NodeState.result` (state.py lines 33-38): Honk when
`result_messages` is empty, otherwise return `result_messages[-1]` — with
no regard to whether a user message was appended after it. -/
def NodeStateI.result {R : Type} (s : NodeStateI R) : Except String R :=
  match s.conversation.result_messages.getLast? with
  | none => .error "Honk: Node awaiting response, has no result"
  | some r => .ok r

/-- Internal `NodeState.add_result` (state.py lines 44-57): with
`overwrite` and a nonempty `result_messages`, replace the last entry;
otherwise append; store the new hash when supplied. -/
def NodeStateI.add_result {R : Type} (s : NodeStateI R) (result : R)
    (new_hash : Option Nat) (overwrite : Bool) :
    NodeStateI R :=
  let results :=
    if overwrite && !s.conversation.result_messages.isEmpty then
      s.conversation.result_messages.dropLast ++ [result]
    else
      s.conversation.result_messages ++ [result]
  { s with
    conversation := { s.conversation with result_messages := results }
    last_hash := new_hash.getD s.last_hash }

/-- Internal `NodeState.add_user_message` (state.py lines 59-61):
unconditionally append to `user_messages`. -/
def NodeStateI.add_user_message {R : Type} (s : NodeStateI R) (text : String) :
    NodeStateI R :=
  { s with
    conversation :=
      { s.conversation with user_messages := s.conversation.user_messages ++ [text] } }

/-- Chronological interleaving of the two message lists of an internal
conversation: result 0, user 0, result 1, user 1, ....  This is the order
the refinement history is rebuilt in (task.py lines 91-103: assistant turn
for `result_messages[i]`, then `user_messages[i]`). -/
def interleaveEntries {R : Type} : List String → List R → List (Msg R)
| us, [] => us.map Msg.user
| [], r :: rs => Msg.result r :: interleaveEntries ([] : List String) rs
| u :: us, r :: rs => Msg.result r :: Msg.user u :: interleaveEntries us rs

/-- The entries of an internal conversation in chronological order, used to
state what its "latest entry" is. -/
def ConversationI.entries {R : Type} (c : ConversationI R) : List (Msg R) :=
  interleaveEntries c.user_messages c.result_messages

/-- Internal `Task.generate` (src/goose/_internal/task.py lines 40-47),
with the computed argument hash and the generator's output passed as
values (hash computation is embedded separately as `hashTaskCall`).
Returns the produced result, the updated node state, and whether the task
body was invoked.  When the hash matches, `state.result` is read, which
fails (Honk) on a conversation with no result messages. -/
def taskGenerate {R : Type} (state_hash : Nat) (body : R) (state : NodeStateI R) :
    Except String (R × NodeStateI R × Bool) :=
  if state_hash ≠ state.last_hash then
    .ok (body, state.add_result body (some state_hash) true, true)
  else
    match state.result with
    | .error e => .error e
    | .ok r => .ok (r, state, false)

/-- Chained alternation check seeded with the class of the previous
message: the boolean counterpart of `alternatesFlowLoop`. -/
def altChain {R : Type} (lastIsUser : Bool) : List (Msg R) → Bool
| [] => true
| m :: rest => (m.isUser != lastIsUser) && altChain m.isUser rest

theorem bne_comm_bool (a b : Bool) : (a != b) = (b != a) := by
  cases a <;> cases b <;> rfl

theorem alternatesFlowLoop_ok_iff {R : Type} (lastIsUser : Bool)
    (msgs : List (Msg R)) :
    alternatesFlowLoop lastIsUser msgs = .ok () ↔ altChain lastIsUser msgs = true := by
  induction msgs generalizing lastIsUser with
  | nil => simp [alternatesFlowLoop, altChain]
  | cons m rest ih =>
    by_cases h : m.isUser = lastIsUser
    · simp [alternatesFlowLoop, altChain, h]
    · simp [alternatesFlowLoop, altChain, h, ih]

theorem altChain_eq_pairs {R : Type} (m : Msg R) (rest : List (Msg R)) :
    altChain m.isUser rest =
      ((m :: rest).zip rest).all (fun p => p.1.isUser != p.2.isUser) := by
  induction rest generalizing m with
  | nil => rfl
  | cons r rest ih =>
    simp only [altChain, List.zip_cons_cons, List.all_cons, ← ih r]
    rw [bne_comm_bool]

/-- The flow.py validator accepts exactly the alternation-valid sequences. -/
theorem alternatesFlow_ok_iff {R : Type} (msgs : List (Msg R)) :
    alternatesFlow msgs = .ok () ↔ specAlternationValid msgs = true := by
  cases msgs with
  | nil => simp [alternatesFlow, specAlternationValid]
  | cons m rest =>
    by_cases h : m.isUser
    · simp [alternatesFlow, specAlternationValid, h]
    · have hstep : alternatesFlow (m :: rest) = alternatesFlowLoop m.isUser rest := by
        simp [alternatesFlow, h]
      rw [hstep, alternatesFlowLoop_ok_iff, altChain_eq_pairs]
      simp [specAlternationValid, h]

/-- C3: the flow.py `Conversation` validator accepts a message sequence iff
it is empty or starts with a result message and strictly alternates; the
`ConversationState` validator in types/conversation.py, however, rejects
the alternation-valid singleton `[ResultMessage]`, because its loop starts
at `messages[0]` instead of `messages[1:]` and so always finds the first
message equal to its own recorded class.  It therefore fails every
non-empty conversation, contradicting the claim (and the flow.py twin). -/
theorem claim3_alternation_validator :
    (∀ msgs : List (Msg Nat), alternatesFlow msgs = .ok () ↔ specAlternationValid msgs = true)
    ∧ specAlternationValid [Msg.result (0 : Nat)] = true
    ∧ alternatesTypes [Msg.result (0 : Nat)] =
        .error "Honk: Conversation must alternate between User and Result messages" :=
  ⟨fun msgs => alternatesFlow_ok_iff msgs, rfl, rfl⟩

/-- C7 counterexample: starting from the valid conversation `[Result 5]`,
two consecutive `add_user_message` calls on a flow.py `NodeState` both
succeed (the method appends unconditionally; no `ConversationError` is
raised), leaving two adjacent user messages — the alternation invariant
does not survive the mutation, contrary to the claim. -/
theorem claim7_adjacent_users_accepted :
    (((⟨"pick_word", 0, ⟨[Msg.result (5 : Nat)], none⟩, 0⟩ : NodeStateF Nat).add_user_message
        "make it a dog").add_user_message "make it a cat").conversation.messages
      = [Msg.result 5, Msg.user "make it a dog", Msg.user "make it a cat"]
    ∧ specAlternationValid
        [Msg.result (5 : Nat), Msg.user "make it a dog", Msg.user "make it a cat"] = false :=
  ⟨rfl, rfl⟩

/-- C7 amended: in-place conversation mutations are not validated —
`NodeState.add_user_message` always appends the user turn, even adjacent to
an existing user message; the alternation invariant is enforced only where
the pydantic validator runs, i.e. when a conversation is (re)constructed,
and there every violating sequence is rejected with a Honk error. -/
theorem claim7_mutation_unvalidated {R : Type} (s : NodeStateF R) (text : String) :
    (s.add_user_message text).conversation.messages
        = s.conversation.messages ++ [Msg.user text]
    ∧ ∀ msgs : List (Msg R), specAlternationValid msgs = false →
        ∃ e, alternatesFlow msgs = .error e := by
  refine ⟨rfl, fun msgs hbad => ?_⟩
  cases halt : alternatesFlow msgs with
  | ok u =>
    cases u
    rw [alternatesFlow_ok_iff msgs] at halt
    rw [halt] at hbad
    cases hbad
  | error e => exact ⟨e, rfl⟩

/-- C2: internal `Task.generate` memoization.  With the computed hash equal
to the stored hash, the stored latest result is returned and the body is
not invoked; with a differing hash the body runs once, its result
overwrites the latest result entry (appends when the conversation is
empty) and the new hash is stored; and a second generate call for the same
node with the same computed hash performs no invocation and returns the
result of the first call. -/
theorem claim2_generate_memoization {R : Type} (h : Nat) (body alt : R)
    (s : NodeStateI R) :
    (h = s.last_hash → s.conversation.result_messages ≠ [] →
      ∃ r, s.conversation.result_messages.getLast? = some r
        ∧ taskGenerate h body s = .ok (r, s, false))
    ∧ (h ≠ s.last_hash →
      taskGenerate h body s = .ok (body, s.add_result body (some h) true, true)
      ∧ (s.add_result body (some h) true).conversation.result_messages =
          (if s.conversation.result_messages.isEmpty then [body]
           else s.conversation.result_messages.dropLast ++ [body])
      ∧ (s.add_result body (some h) true).last_hash = h)
    ∧ (∀ r s₂ invoked, taskGenerate h body s = .ok (r, s₂, invoked) →
        taskGenerate h alt s₂ = .ok (r, s₂, false)) := by
  refine ⟨?_, ?_, ?_⟩
  · intro heq hne
    cases hr : s.conversation.result_messages.getLast? with
    | none =>
      rw [List.getLast?_eq_none_iff] at hr
      exact absurd hr hne
    | some r =>
      refine ⟨r, rfl, ?_⟩
      simp [taskGenerate, heq, NodeStateI.result, hr]
  · intro hne
    refine ⟨by simp [taskGenerate, hne], ?_, rfl⟩
    by_cases he : s.conversation.result_messages.isEmpty
    · simp [NodeStateI.add_result, he, List.isEmpty_iff.mp he]
    · simp [NodeStateI.add_result, he]
  · intro r s₂ invoked heq
    by_cases hh : h = s.last_hash
    · simp only [taskGenerate, hh, ne_eq, not_true_eq_false, if_false] at heq ⊢
      cases hr : s.result with
      | error e => simp [hr] at heq
      | ok r₀ =>
        simp only [hr] at heq
        cases heq
        simp [hr]
    · simp only [taskGenerate, hh, ne_eq, not_false_eq_true, if_true] at heq
      cases heq
      have hlast : (s.add_result body (some h) true).last_hash = h := rfl
      have hres : (s.add_result body (some h) true).result = .ok body := by
        unfold NodeStateI.result NodeStateI.add_result
        by_cases he : s.conversation.result_messages.isEmpty <;>
          simp [he, List.getLast?_concat]
      simp [taskGenerate, hlast, hres]

/-- C2 witness: a concrete first call with hash 1 on a fresh node state
(stored hash 0) invokes the body, and the immediately following call with
the same hash returns that result without invoking the body. -/
theorem claim2_generate_memoization_witness :
    taskGenerate 1 (7 : Nat) ⟨"double", 0, ⟨[], [], none⟩, 0⟩ =
      .ok (7, (⟨"double", 0, ⟨[], [], none⟩, 0⟩ : NodeStateI Nat).add_result 7 (some 1) true, true)
    ∧ taskGenerate 1 (9 : Nat)
        ((⟨"double", 0, ⟨[], [], none⟩, 0⟩ : NodeStateI Nat).add_result 7 (some 1) true) =
      .ok (7, (⟨"double", 0, ⟨[], [], none⟩, 0⟩ : NodeStateI Nat).add_result 7 (some 1) true, false) := by
  have h := claim2_generate_memoization 1 (7 : Nat) (9 : Nat) ⟨"double", 0, ⟨[], [], none⟩, 0⟩
  have h1 := (h.2.1 (by decide)).1
  exact ⟨h1, h.2.2 7 _ true h1⟩

/-- C8 counterexample: an internal node state whose conversation's latest
entry is an unanswered user message ("change it" appended after result 5).
The claim says the result accessor fails here; the internal accessor
instead returns the superseded result 5. -/
theorem claim8_awaiting_returns_stale :
    (⟨"t", 0, ⟨["change it"], [5], none⟩, 0⟩ : NodeStateI Nat).conversation.entries.getLast?
        = some (Msg.user "change it")
    ∧ (⟨"t", 0, ⟨["change it"], [5], none⟩, 0⟩ : NodeStateI Nat).result = .ok 5 :=
  ⟨rfl, rfl⟩

/-- C8 amended: the flow.py accessor behaves as claimed — it returns `r`
iff the conversation's latest message is the result message `r` (Honk on a
trailing user message); the internal accessor instead fails only when no
result message exists at all, and whenever one exists it returns the last
one — even if a user message was appended after it and is unanswered. -/
theorem claim8_result_accessors {R : Type} (sF : NodeStateF R) (sI : NodeStateI R) :
    (∀ r : R, sF.result = .ok r ↔
        sF.conversation.messages.getLast? = some (Msg.result r))
    ∧ (sI.conversation.result_messages = [] →
        sI.result = .error "Honk: Node awaiting response, has no result")
    ∧ (∀ r : R, sI.conversation.result_messages.getLast? = some r →
        sI.result = .ok r) := by
  refine ⟨fun r => ?_, fun hempty => ?_, fun r hr => ?_⟩
  · unfold NodeStateF.result
    cases hl : sF.conversation.messages.getLast? with
    | none => simp
    | some m => cases m <;> simp
  · unfold NodeStateI.result
    rw [hempty]
    rfl
  · unfold NodeStateI.result
    rw [hr]

/-- A Python value as seen by `Node.get_inbound_nodes` (src/goose/core.py
lines 158-187): a `Node` reference (identified by id), a `dict`, a `list`,
a `tuple`, a `set`, an object carrying a populated field table (the
`hasattr(obj, "__dict__")` fallback), or an atom none of the `isinstance`
branches match. -/
inductive PyVal where
| node (id : Nat)
| pdict (entries : List (PyVal × PyVal))
| plist (items : List PyVal)
| ptuple (items : List PyVal)
| pset (items : List PyVal)
| pobj (fields : List (String × PyVal))
| atom (text : String)

mutual

/-- Embedding of the `__find_nodes` walk in `Node.get_inbound_nodes`
(core.py lines 159-185): a Node yields itself; a dict contributes its
values only (`obj.values()` — keys are not scanned); lists, tuples and
sets contribute their items; an object with `__dict__` contributes its
field values; anything else contributes nothing.  The `visited` set in the
source is threaded but never read or written, so it has no effect. -/
def findNodes : PyVal → List Nat
| .node i => [i]
| .pdict entries => findNodesDictVals entries
| .plist items => findNodesList items
| .ptuple items => findNodesList items
| .pset items => findNodesList items
| .pobj fields => findNodesFields fields
| .atom _ => []

/-- Value-by-value traversal of a container's items. -/
def findNodesList : List PyVal → List Nat
| [] => []
| v :: vs => findNodes v ++ findNodesList vs

/-- Traversal of a dict's values (`for value in obj.values()`). -/
def findNodesDictVals : List (PyVal × PyVal) → List Nat
| [] => []
| (_, v) :: es => findNodes v ++ findNodesDictVals es

/-- Traversal of an object's `__dict__.values()`. -/
def findNodesFields : List (String × PyVal) → List Nat
| [] => []
| (_, v) :: fs => findNodes v ++ findNodesFields fs

end

/-- The claim's notion of a Node reference reachable from a value:
descending into sequences, sets, mappings — both keys and values — and
structured objects' fields. -/
inductive DepClaim : PyVal → Nat → Prop where
| here (i : Nat) : DepClaim (.node i) i
| dict_key {es : List (PyVal × PyVal)} {k v : PyVal} {i : Nat} :
    (k, v) ∈ es → DepClaim k i → DepClaim (.pdict es) i
| dict_val {es : List (PyVal × PyVal)} {k v : PyVal} {i : Nat} :
    (k, v) ∈ es → DepClaim v i → DepClaim (.pdict es) i
| list_mem {items : List PyVal} {v : PyVal} {i : Nat} :
    v ∈ items → DepClaim v i → DepClaim (.plist items) i
| tuple_mem {items : List PyVal} {v : PyVal} {i : Nat} :
    v ∈ items → DepClaim v i → DepClaim (.ptuple items) i
| set_mem {items : List PyVal} {v : PyVal} {i : Nat} :
    v ∈ items → DepClaim v i → DepClaim (.pset items) i
| obj_field {fields : List (String × PyVal)} {n : String} {v : PyVal} {i : Nat} :
    (n, v) ∈ fields → DepClaim v i → DepClaim (.pobj fields) i

/-- The amended notion: as `DepClaim` but mapping keys are not descended —
only mapping values — matching the code's `obj.values()` iteration. -/
inductive Dep : PyVal → Nat → Prop where
| here (i : Nat) : Dep (.node i) i
| dict_val {es : List (PyVal × PyVal)} {k v : PyVal} {i : Nat} :
    (k, v) ∈ es → Dep v i → Dep (.pdict es) i
| list_mem {items : List PyVal} {v : PyVal} {i : Nat} :
    v ∈ items → Dep v i → Dep (.plist items) i
| tuple_mem {items : List PyVal} {v : PyVal} {i : Nat} :
    v ∈ items → Dep v i → Dep (.ptuple items) i
| set_mem {items : List PyVal} {v : PyVal} {i : Nat} :
    v ∈ items → Dep v i → Dep (.pset items) i
| obj_field {fields : List (String × PyVal)} {n : String} {v : PyVal} {i : Nat} :
    (n, v) ∈ fields → Dep v i → Dep (.pobj fields) i

theorem mem_findNodesList {items : List PyVal} {i : Nat} :
    i ∈ findNodesList items ↔ ∃ v ∈ items, i ∈ findNodes v := by
  induction items with
  | nil => simp [findNodesList]
  | cons v vs ih => simp [findNodesList, ih]

theorem mem_findNodesDictVals {es : List (PyVal × PyVal)} {i : Nat} :
    i ∈ findNodesDictVals es ↔ ∃ e ∈ es, i ∈ findNodes e.2 := by
  induction es with
  | nil => simp [findNodesDictVals]
  | cons e es ih =>
    obtain ⟨k, v⟩ := e
    simp [findNodesDictVals, ih]

theorem mem_findNodesFields {fs : List (String × PyVal)} {i : Nat} :
    i ∈ findNodesFields fs ↔ ∃ f ∈ fs, i ∈ findNodes f.2 := by
  induction fs with
  | nil => simp [findNodesFields]
  | cons f fs ih =>
    obtain ⟨n, v⟩ := f
    simp [findNodesFields, ih]

theorem sizeOf_lt_of_mem_list {v : PyVal} {items : List PyVal} (h : v ∈ items) :
    sizeOf v < 1 + sizeOf items :=
  lt_trans (List.sizeOf_lt_of_mem h) (by omega)

theorem sizeOf_snd_lt_of_mem_pairs {k v : PyVal} {es : List (PyVal × PyVal)}
    (h : (k, v) ∈ es) : sizeOf v < 1 + sizeOf es := by
  have h1 : sizeOf (k, v) < sizeOf es := List.sizeOf_lt_of_mem h
  have h2 : sizeOf (k, v) = 1 + sizeOf k + sizeOf v := rfl
  omega

theorem sizeOf_snd_lt_of_mem_fields {n : String} {v : PyVal}
    {fs : List (String × PyVal)} (h : (n, v) ∈ fs) : sizeOf v < 1 + sizeOf fs := by
  have h1 : sizeOf (n, v) < sizeOf fs := List.sizeOf_lt_of_mem h
  have h2 : sizeOf (n, v) = 1 + sizeOf n + sizeOf v := rfl
  omega

/-- C9 amended: the dependency-extraction walk collects exactly the Node
references reachable by descending into sequences, tuples, sets, mapping
values and structured objects' fields — mapping keys are not descended
(the code iterates `obj.values()`), so a Node occurring only in key
position is not collected. -/
theorem claim9_walk_collects_value_reachable (v : PyVal) (i : Nat) :
    i ∈ findNodes v ↔ Dep v i := by
  have main : ∀ n : Nat, ∀ v : PyVal, sizeOf v ≤ n → ∀ i : Nat,
      (i ∈ findNodes v ↔ Dep v i) := by
    intro n
    induction n with
    | zero =>
      intro v hv
      cases v <;> simp_all
    | succ n ih =>
      intro v hv i
      cases v with
      | node j =>
        simp only [findNodes, List.mem_singleton]
        constructor
        · rintro rfl
          exact Dep.here _
        · rintro ⟨⟩
          rfl
      | pdict es =>
        have hsz : sizeOf (PyVal.pdict es) = 1 + sizeOf es := by simp
        rw [findNodes, mem_findNodesDictVals]
        constructor
        · rintro ⟨⟨k, w⟩, hmem, hfind⟩
          have h1 := sizeOf_snd_lt_of_mem_pairs hmem
          exact Dep.dict_val hmem ((ih w (by omega) i).mp hfind)
        · intro hdep
          cases hdep with
          | dict_val hmem hdep =>
            rename_i k w
            have h1 := sizeOf_snd_lt_of_mem_pairs hmem
            exact ⟨(k, w), hmem, (ih w (by omega) i).mpr hdep⟩
      | plist items =>
        have hsz : sizeOf (PyVal.plist items) = 1 + sizeOf items := by simp
        rw [findNodes, mem_findNodesList]
        constructor
        · rintro ⟨w, hmem, hfind⟩
          have h1 := sizeOf_lt_of_mem_list hmem
          exact Dep.list_mem hmem ((ih w (by omega) i).mp hfind)
        · intro hdep
          cases hdep with
          | list_mem hmem hdep =>
            rename_i w
            have h1 := sizeOf_lt_of_mem_list hmem
            exact ⟨w, hmem, (ih w (by omega) i).mpr hdep⟩
      | ptuple items =>
        have hsz : sizeOf (PyVal.ptuple items) = 1 + sizeOf items := by simp
        rw [findNodes, mem_findNodesList]
        constructor
        · rintro ⟨w, hmem, hfind⟩
          have h1 := sizeOf_lt_of_mem_list hmem
          exact Dep.tuple_mem hmem ((ih w (by omega) i).mp hfind)
        · intro hdep
          cases hdep with
          | tuple_mem hmem hdep =>
            rename_i w
            have h1 := sizeOf_lt_of_mem_list hmem
            exact ⟨w, hmem, (ih w (by omega) i).mpr hdep⟩
      | pset items =>
        have hsz : sizeOf (PyVal.pset items) = 1 + sizeOf items := by simp
        rw [findNodes, mem_findNodesList]
        constructor
        · rintro ⟨w, hmem, hfind⟩
          have h1 := sizeOf_lt_of_mem_list hmem
          exact Dep.set_mem hmem ((ih w (by omega) i).mp hfind)
        · intro hdep
          cases hdep with
          | set_mem hmem hdep =>
            rename_i w
            have h1 := sizeOf_lt_of_mem_list hmem
            exact ⟨w, hmem, (ih w (by omega) i).mpr hdep⟩
      | pobj fields =>
        have hsz : sizeOf (PyVal.pobj fields) = 1 + sizeOf fields := by simp
        rw [findNodes, mem_findNodesFields]
        constructor
        · rintro ⟨⟨nm, w⟩, hmem, hfind⟩
          have h1 := sizeOf_snd_lt_of_mem_fields hmem
          exact Dep.obj_field hmem ((ih w (by omega) i).mp hfind)
        · intro hdep
          cases hdep with
          | obj_field hmem hdep =>
            rename_i nm w
            have h1 := sizeOf_snd_lt_of_mem_fields hmem
            exact ⟨(nm, w), hmem, (ih w (by omega) i).mpr hdep⟩
      | atom s =>
        simp only [findNodes, List.not_mem_nil, false_iff]
        intro hdep
        cases hdep
  exact main (sizeOf v) v (le_refl _) i

/-- C9 counterexample: a bound-arguments dict whose value is a nested dict
using Node 7 as a mapping key.  The claim's walk (descending keys and
values) reaches Node 7, but `get_inbound_nodes` returns no dependency. -/
theorem claim9_node_as_dict_key_missed :
    findNodes (.pdict [(.atom "mapping", .pdict [(.node 7, .atom "v")])]) = []
    ∧ DepClaim (.pdict [(.atom "mapping", .pdict [(.node 7, .atom "v")])]) 7 :=
  ⟨rfl,
    DepClaim.dict_val (List.mem_cons_self _ _)
      (DepClaim.dict_key (List.mem_cons_self _ _) (DepClaim.here 7))⟩

/-- The reverse-adjacency relation the cascade walks (core.py lines
254-260): the dependents of `d` are the nodes whose inbound (dependency)
list contains `d`.  The graph is an association list from node id to the
node's `get_inbound_nodes()` output. -/
def revAdj (inbound : List (Nat × List Nat)) (d : Nat) : List Nat :=
  (inbound.filter (fun p => decide (d ∈ p.2))).map Prod.fst

/-- Key membership in the `subgraph` accumulator (`outbound_node not in
subgraph`). -/
def sgContains (sg : List (Nat × List Nat)) (d : Nat) : Bool :=
  sg.any (fun e => e.1 == d)

/-- `subgraph[outbound_node].add(node)` on a `defaultdict(set)`: fetching
the key creates it (with an empty set) when absent, then the element is
added. -/
def sgInsertAdd (sg : List (Nat × List Nat)) (d n : Nat) : List (Nat × List Nat) :=
  match sg with
  | [] => [(d, [n])]
  | e :: rest =>
    if e.1 = d then (e.1, if n ∈ e.2 then e.2 else e.2 ++ [n]) :: rest
    else e :: sgInsertAdd rest d n

/-- One iteration of the inner `for outbound_node in outbound_nodes` loop
of `Flow.regenerate` (core.py lines 270-273): insert into the subgraph
first, then test membership — the test runs after the defaultdict access
has already created the key. -/
def regenVisitStep (n : Nat) (st : List (Nat × List Nat) × List Nat) (d : Nat) :
    List (Nat × List Nat) × List Nat :=
  let sg2 := sgInsertAdd st.1 d n
  (sg2, if sgContains sg2 d then st.2 else st.2 ++ [d])

/-- The `while len(queue) > 0` loop of `Flow.regenerate` (core.py lines
267-273), with explicit fuel bounding the number of iterations (the loop
terminates because, as proved below, the queue never grows). -/
def regenLoop (rev : Nat → List Nat) : Nat → List (Nat × List Nat) → List Nat →
    List (Nat × List Nat)
| 0, sg, _ => sg
| Nat.succ _, sg, [] => sg
| Nat.succ fuel, sg, n :: rest =>
  let st := (rev n).foldl (regenVisitStep n) (sg, rest)
  regenLoop rev fuel st.1 st.2

/-- The subgraph `Flow.regenerate` builds from the target before
re-scheduling. -/
def regenSubgraph (inbound : List (Nat × List Nat)) (target : Nat) :
    List (Nat × List Nat) :=
  regenLoop (revAdj inbound) (inbound.length + 1) [] [target]

/-- The set of nodes whose `generate()` the cascade actually re-runs: every
node mentioned in the subgraph handed to `TopologicalSorter` (keys and
predecessor sets), except the target itself (core.py lines 275-288,
`if node != target`). -/
def executedNodes (inbound : List (Nat × List Nat)) (target : Nat) : List Nat :=
  let sg := regenSubgraph inbound target
  ((sg.map Prod.fst) ++ (sg.map Prod.snd).flatten).dedup.filter (fun x => x != target)

/-- Breadth-first closure over an adjacency function — the claim's notion
of the set of nodes transitively reachable from the target via reverse
edges (visited accumulates; fuel bounds iterations). -/
def bfsClosure (rev : Nat → List Nat) : Nat → List Nat → List Nat → List Nat
| 0, _, vis => vis
| Nat.succ _, [], vis => vis
| Nat.succ fuel, n :: rest, vis =>
  let vis2 := vis ++ [n]
  let fresh := (rev n).filter (fun d => !(vis2.contains d) && !(rest.contains d))
  bfsClosure rev fuel (rest ++ fresh) vis2

/-- The claim's re-execution set: all nodes transitively reachable from the
target via reverse dependency edges, excluding the target itself. -/
def specDownstream (inbound : List (Nat × List Nat)) (target : Nat) : List Nat :=
  (bfsClosure (revAdj inbound) ((inbound.length + 1) * (inbound.length + 1) + 1)
      [target] []).filter (fun x => x != target)

theorem sgContains_sgInsertAdd (sg : List (Nat × List Nat)) (d n : Nat) :
    sgContains (sgInsertAdd sg d n) d = true := by
  induction sg with
  | nil => simp [sgInsertAdd, sgContains]
  | cons e rest ih =>
    by_cases h : e.1 = d
    · simp [sgInsertAdd, sgContains, h]
    · simpa [sgInsertAdd, sgContains, h] using ih

/-- The visited-check runs after the defaultdict insertion, so it never
fires: the inner loop leaves the queue untouched and only accumulates
subgraph insertions. -/
theorem regenVisit_queue_fixed (n : Nat) (outs : List Nat)
    (sg : List (Nat × List Nat)) (q : List Nat) :
    outs.foldl (regenVisitStep n) (sg, q)
      = (outs.foldl (fun s d => sgInsertAdd s d n) sg, q) := by
  induction outs generalizing sg with
  | nil => rfl
  | cons d outs ih =>
    have hstep : regenVisitStep n (sg, q) d = (sgInsertAdd sg d n, q) := by
      simp [regenVisitStep, sgContains_sgInsertAdd]
    simp only [List.foldl_cons, hstep, ih]

theorem regenLoop_nil (rev : Nat → List Nat) (fuel : Nat)
    (sg : List (Nat × List Nat)) : regenLoop rev fuel sg [] = sg := by
  cases fuel <;> rfl

/-- Consequence of the misplaced visited-check: the whole cascade walk
degenerates to a single pass over the target's direct dependents — no node
beyond depth one is ever enqueued. -/
theorem regenSubgraph_direct_only (inbound : List (Nat × List Nat)) (target : Nat) :
    regenSubgraph inbound target
      = (revAdj inbound target).foldl (fun s d => sgInsertAdd s d target) [] := by
  show regenLoop (revAdj inbound) (inbound.length + 1) [] [target]
      = (revAdj inbound target).foldl (fun s d => sgInsertAdd s d target) []
  rw [show regenLoop (revAdj inbound) (inbound.length + 1) [] [target]
      = regenLoop (revAdj inbound) inbound.length
          ((revAdj inbound target).foldl (regenVisitStep target) ([], [])).1
          ((revAdj inbound target).foldl (regenVisitStep target) ([], [])).2 from rfl]
  rw [regenVisit_queue_fixed]
  exact regenLoop_nil _ _ _

/-- C1: on the linear chain 0→1→2 (with disjoint branch 3→4) refining node
0 re-executes only the direct dependent 1, not the claimed set {1, 2}; on
the diamond 0→{1,2}→3 it re-executes {1, 2}, not the claimed {1, 2, 3}.
The target itself and the disjoint branch are indeed never re-executed,
but the cascade stops at depth one. -/
theorem claim1_cascade_stops_at_direct_dependents :
    executedNodes [(0, []), (1, [0]), (2, [1]), (3, []), (4, [3])] 0 = [1]
    ∧ specDownstream [(0, []), (1, [0]), (2, [1]), (3, []), (4, [3])] 0 = [1, 2]
    ∧ executedNodes [(0, []), (1, [0]), (2, [0]), (3, [1, 2])] 0 = [1, 2]
    ∧ specDownstream [(0, []), (1, [0]), (2, [0]), (3, [1, 2])] 0 = [1, 2, 3] := by
  refine ⟨?_, ?_, ?_, ?_⟩ <;> rfl

/-- UTF-8-level content of a Python string as fed to `hash.update(s.encode())`,
modelled as the list of code points. -/
def encStr (s : String) : List Nat :=
  s.data.map Char.toNat

/-- An argument value as classified by the `isinstance` chain of
`Task.__hash_task_call` (src/goose/_internal/task.py lines 113-138):
list/tuple/set (one branch), dict, a pydantic `BaseModel` (carrying its
`model_dump_json()` text), raw bytes, the `Agent` capability object
(identified by a reference id the code never reads), or anything else
(carrying its `str()` text). -/
inductive HVal where
| hstr (s : String)
| hbytes (b : List Nat)
| hmodel (json : String)
| hagent (id : Nat)
| hlist (items : List HVal)
| hdict (entries : List (HVal × HVal))

mutual

/-- One `update_hash(argument, current_hash)` call targeting the running
sha256 accumulator (`result`).  The state is (bytes fed to `result`, bytes
fed to the function's default `hashlib.sha256()` object).  The `BaseModel`
branch calls `update_hash(argument.model_dump_json())` without passing
`current_hash`, so the model's serialized form is fed to the discarded
default accumulator instead of the running one. -/
def updMain : HVal → List Nat × List Nat → List Nat × List Nat
| .hstr s, st => (st.1 ++ encStr s, st.2)
| .hbytes b, st => (st.1 ++ b, st.2)
| .hmodel json, st => (st.1, st.2 ++ encStr json)
| .hagent _, st => (st.1 ++ encStr "AGENT", st.2)
| .hlist items, st => updMainList items st
| .hdict es, st => updMainDict es st

/-- `for item in argument: update_hash(item, current_hash)`. -/
def updMainList : List HVal → List Nat × List Nat → List Nat × List Nat
| [], st => st
| v :: vs, st => updMainList vs (updMain v st)

/-- `for key, value in argument.items(): update_hash(key, ...); update_hash(value, ...)`. -/
def updMainDict : List (HVal × HVal) → List Nat × List Nat → List Nat × List Nat
| [], st => st
| (k, v) :: es, st => updMainDict es (updMain v (updMain k st))

end

mutual

/-- The bytes a value actually contributes to the running sha256 — the
content the final hash is a function of. -/
def mainStream : HVal → List Nat
| .hstr s => encStr s
| .hbytes b => b
| .hmodel _ => []
| .hagent _ => encStr "AGENT"
| .hlist items => mainStreamList items
| .hdict es => mainStreamDict es

/-- Contribution of a container's items in order. -/
def mainStreamList : List HVal → List Nat
| [] => []
| v :: vs => mainStream v ++ mainStreamList vs

/-- Contribution of a dict's entries, key then value. -/
def mainStreamDict : List (HVal × HVal) → List Nat
| [] => []
| (k, v) :: es => mainStream k ++ mainStream v ++ mainStreamDict es

end

/-- `Task.__hash_task_call`: feed the positional-argument tuple, then the
keyword dict (parameter names as string keys), into a fresh sha256; the
hash value is a function of exactly the bytes fed to the running
accumulator, so it is modelled by that byte stream. -/
def hashTaskCall (args : List HVal) (kwargs : List (String × HVal)) : List Nat :=
  (updMain (.hdict (kwargs.map (fun p => (HVal.hstr p.1, p.2))))
    (updMain (.hlist args) ([], []))).1

theorem updMain_fst (n : Nat) :
    (∀ v : HVal, sizeOf v ≤ n → ∀ m s : List Nat,
        (updMain v (m, s)).1 = m ++ mainStream v)
    ∧ (∀ l : List HVal, sizeOf l ≤ n → ∀ m s : List Nat,
        (updMainList l (m, s)).1 = m ++ mainStreamList l)
    ∧ (∀ es : List (HVal × HVal), sizeOf es ≤ n → ∀ m s : List Nat,
        (updMainDict es (m, s)).1 = m ++ mainStreamDict es) := by
  induction n with
  | zero =>
    refine ⟨fun v hv => ?_, fun l hl => ?_, fun es hes => ?_⟩
    · cases v <;> simp_all
    · cases l <;> simp_all
    · cases es <;> simp_all
  | succ n ih =>
    obtain ⟨ihv, ihl, ihd⟩ := ih
    refine ⟨fun v hv m s => ?_, fun l hl m s => ?_, fun es hes m s => ?_⟩
    · cases v with
      | hstr t => rfl
      | hbytes b => rfl
      | hmodel j => simp [updMain, mainStream]
      | hagent a => rfl
      | hlist items =>
        have hsz : sizeOf (HVal.hlist items) = 1 + sizeOf items := by simp
        exact ihl items (by omega) m s
      | hdict es =>
        have hsz : sizeOf (HVal.hdict es) = 1 + sizeOf es := by simp
        exact ihd es (by omega) m s
    · cases l with
      | nil => simp [updMainList, mainStreamList]
      | cons v vs =>
        have hsz : sizeOf (v :: vs) = 1 + sizeOf v + sizeOf vs := by simp
        rcases heq : updMain v (m, s) with ⟨m₂, s₂⟩
        have hm₂ : m₂ = m ++ mainStream v := by
          have := ihv v (by omega) m s
          rw [heq] at this
          exact this
        calc (updMainList (v :: vs) (m, s)).1
            = (updMainList vs (m₂, s₂)).1 := by rw [updMainList, heq]
          _ = m₂ ++ mainStreamList vs := ihl vs (by omega) m₂ s₂
          _ = m ++ mainStreamList (v :: vs) := by
              rw [hm₂, mainStreamList, List.append_assoc]
    · cases es with
      | nil => simp [updMainDict, mainStreamDict]
      | cons e es =>
        obtain ⟨k, v⟩ := e
        have hsz : sizeOf ((k, v) :: es) = 1 + (1 + sizeOf k + sizeOf v) + sizeOf es := by
          simp
        rcases heqk : updMain k (m, s) with ⟨m₂, s₂⟩
        have hm₂ : m₂ = m ++ mainStream k := by
          have := ihv k (by omega) m s
          rw [heqk] at this
          exact this
        rcases heqv : updMain v (m₂, s₂) with ⟨m₃, s₃⟩
        have hm₃ : m₃ = m₂ ++ mainStream v := by
          have := ihv v (by omega) m₂ s₂
          rw [heqv] at this
          exact this
        calc (updMainDict ((k, v) :: es) (m, s)).1
            = (updMainDict es (m₃, s₃)).1 := by rw [updMainDict, heqk, heqv]
          _ = m₃ ++ mainStreamDict es := ihd es (by omega) m₃ s₃
          _ = m ++ mainStreamDict ((k, v) :: es) := by
              rw [hm₃, hm₂, mainStreamDict]
              simp [List.append_assoc]

/-- The computed hash is a function of the positional arguments' and
keyword entries' main-stream contributions. -/
theorem hashTaskCall_eq (args : List HVal) (kwargs : List (String × HVal)) :
    hashTaskCall args kwargs
      = mainStreamList args
          ++ mainStreamDict (kwargs.map (fun p => (HVal.hstr p.1, p.2))) := by
  rcases heq : updMain (.hlist args) ([], []) with ⟨m₁, s₁⟩
  have hm₁ : m₁ = mainStreamList args := by
    have := ((updMain_fst (sizeOf (HVal.hlist args))).1 (HVal.hlist args)
      (le_refl _) [] [])
    rw [heq] at this
    simpa [mainStream] using this
  have h₂ := ((updMain_fst (sizeOf (HVal.hdict (kwargs.map (fun p => (HVal.hstr p.1, p.2)))))).1
    (HVal.hdict (kwargs.map (fun p => (HVal.hstr p.1, p.2)))) (le_refl _) m₁ s₁)
  unfold hashTaskCall
  rw [heq, h₂, hm₁, mainStream]

theorem mainStreamList_append (l₁ l₂ : List HVal) :
    mainStreamList (l₁ ++ l₂) = mainStreamList l₁ ++ mainStreamList l₂ := by
  induction l₁ with
  | nil => rfl
  | cons v vs ih => simp [mainStreamList, ih]

/-- C4: the memoization hash is insensitive to the Agent capability object
(any two Agent references feed the same constant bytes) — but it is also,
contrary to the claim, insensitive to the content of any pydantic
BaseModel argument: the model's serialized JSON is fed to the discarded
default accumulator (`update_hash(argument.model_dump_json())` omits
`current_hash`), so changing a model-valued argument does not change the
hash and does not force re-invocation.  Plain-string arguments do change
the stream. -/
theorem claim4_hash_model_and_agent_blind (j₁ j₂ : String) (a₁ a₂ : Nat)
    (pre post : List HVal) (kwargs : List (String × HVal)) :
    hashTaskCall (pre ++ .hmodel j₁ :: post) kwargs
        = hashTaskCall (pre ++ .hmodel j₂ :: post) kwargs
    ∧ hashTaskCall (pre ++ .hagent a₁ :: post) kwargs
        = hashTaskCall (pre ++ .hagent a₂ :: post) kwargs
    ∧ hashTaskCall [.hstr "cat"] [] ≠ hashTaskCall [.hstr "dog"] [] := by
  refine ⟨?_, ?_, by decide⟩
  · rw [hashTaskCall_eq, hashTaskCall_eq, mainStreamList_append, mainStreamList_append]
    rfl
  · rw [hashTaskCall_eq, hashTaskCall_eq, mainStreamList_append, mainStreamList_append]
    rfl

/-- A Python dict lookup over an association list (first match wins; a
Python dict has unique keys, which `dictSet` preserves). -/
def dictGet {K V : Type} [DecidableEq K] (k : K) : List (K × V) → Option V
| [] => none
| e :: rest => if e.1 = k then some e.2 else dictGet k rest

/-- A Python dict assignment: replace the entry in place when the key is
present, append otherwise. -/
def dictSet {K V : Type} [DecidableEq K] (k : K) (v : V) : List (K × V) → List (K × V)
| [] => [(k, v)]
| e :: rest => if e.1 = k then (k, v) :: rest else e :: dictSet k v rest

theorem dictGet_dictSet_self {K V : Type} [DecidableEq K] (k : K) (v : V)
    (l : List (K × V)) : dictGet k (dictSet k v l) = some v := by
  induction l with
  | nil => simp [dictGet, dictSet]
  | cons e rest ih =>
    by_cases h : e.1 = k
    · simp [dictGet, dictSet, h]
    · simp [dictGet, dictSet, h, ih]

theorem dictGet_dictSet_ne {K V : Type} [DecidableEq K] (k k₂ : K) (v : V)
    (l : List (K × V)) (h : k₂ ≠ k) : dictGet k₂ (dictSet k v l) = dictGet k₂ l := by
  have hk : k ≠ k₂ := Ne.symm h
  induction l with
  | nil => simp [dictSet, dictGet, hk]
  | cons e rest ih =>
    rcases e with ⟨ek, ev⟩
    by_cases he : ek = k
    · subst he
      simp [dictSet, dictGet, hk]
    · simp [dictSet, dictGet, he, ih]

theorem dictGet_ne_none_of_mem {K V : Type} [DecidableEq K] {e : K × V}
    {l : List (K × V)} (h : e ∈ l) : dictGet e.1 l ≠ none := by
  induction l with
  | nil => cases h
  | cons e₀ rest ih =>
    rcases List.mem_cons.mp h with rfl | hmem
    · simp [dictGet]
    · by_cases he : e₀.1 = e.1 <;> simp [dictGet, he, ih hmem]

/-- Internal `FlowRun` (src/goose/_internal/state.py lines 75-184): the
node-state table keyed by (task name, index) — each value standing for the
stored `model_dump_json` snapshot of a NodeState, identified with the
state it denotes since pydantic's JSON round-trip is the external
collaborator — the transient per-task-name counters, run identity, agent
presence and the recorded flow arguments. -/
structure FlowRunI (A R : Type) where
  node_states : List ((String × Nat) × NodeStateI R)
  last_requested_indices : List (String × Nat)
  flow_name : String
  run_id : String
  agent_active : Bool
  flow_arguments : Option A
deriving DecidableEq

/-- `FlowRun.get` (state.py lines 113-122): deserialize the stored
snapshot when the key is present (a fresh object each call); otherwise a
brand-new empty NodeState — empty conversation, hash 0 — which is not
entered into the table. -/
def FlowRunI.get {A R : Type} (run : FlowRunI A R) (name : String) (index : Nat) :
    NodeStateI R :=
  match dictGet (name, index) run.node_states with
  | some ns => ns
  | none => ⟨name, index, ⟨[], [], none⟩, 0⟩

/-- `FlowRun.get_all` (state.py lines 106-111): the stored states whose
key's task name matches, sorted by index. -/
def FlowRunI.get_all {A R : Type} (run : FlowRunI A R) (name : String) :
    List (NodeStateI R) :=
  ((run.node_states.filter (fun e => e.1.1 == name)).map Prod.snd).mergeSort
    (fun a b => a.index ≤ b.index)

/-- `FlowRun.upsert_node_state` (state.py lines 127-129): store the
state's serialized snapshot under its own (task_name, index). -/
def FlowRunI.upsert_node_state {A R : Type} (run : FlowRunI A R)
    (ns : NodeStateI R) : FlowRunI A R :=
  { run with node_states := dictSet (ns.task_name, ns.index) ns run.node_states }

/-- The index `FlowRun.get_next` (state.py lines 131-137) assigns: 0 on the
task name's first request, previous + 1 afterwards. -/
def FlowRunI.nextIndex {A R : Type} (run : FlowRunI A R) (name : String) : Nat :=
  match dictGet name run.last_requested_indices with
  | none => 0
  | some i => i + 1

/-- `FlowRun.get_next`: bump the task's counter and fetch the node state
at the resulting index. -/
def FlowRunI.get_next {A R : Type} (run : FlowRunI A R) (name : String) :
    NodeStateI R × FlowRunI A R :=
  let i := run.nextIndex name
  let run2 := { run with
    last_requested_indices := dictSet name i run.last_requested_indices }
  (run2.get name i, run2)

/-- `FlowRun.start` (state.py lines 139-149): reset the per-task counters,
record the run identity and construct the Agent. -/
def FlowRunI.start {A R : Type} (run : FlowRunI A R) (flow_name run_id : String) :
    FlowRunI A R :=
  { run with
    last_requested_indices := []
    flow_name := flow_name
    run_id := run_id
    agent_active := true }

/-- A generation pass over a flow body abstracted to the sequence of task
names it calls in order: each call performs `get_next` then
`upsert_node_state` (task.py `Task.__call__`, lines 84-89); the clean
assigned index (the key the call's node state is stored under) is
recorded. -/
def passAssign {A R : Type} : FlowRunI A R → List String → List Nat × FlowRunI A R
| run, [] => ([], run)
| run, name :: rest =>
  let i := run.nextIndex name
  let step := run.get_next name
  let run3 := step.2.upsert_node_state step.1
  let next := passAssign run3 rest
  (i :: next.1, next.2)

/-- `Flow.generate` (src/goose/_internal/flow.py lines 78-84): record the
flow arguments, then run the body.  The per-task counters are NOT touched
here — they are reset only by `FlowRun.start`/`end` around the whole
`start_run` scope. -/
def flowGenerate {A R : Type} (run : FlowRunI A R) (args : A) (body : List String) :
    List Nat × FlowRunI A R :=
  passAssign { run with flow_arguments := some args } body

/-- `Flow.regenerate` (flow.py lines 86-91): re-run the body with the
stored arguments; again no counter reset. -/
def flowRegenerate {A R : Type} (run : FlowRunI A R) (body : List String) :
    List Nat × FlowRunI A R :=
  passAssign run body

/-- The claim's version of `generate`, written from the claim's words: the
per-task-name index counter is reset at the start of every top-level
generate invocation. -/
def claimGenerate {A R : Type} (run : FlowRunI A R) (args : A) (body : List String) :
    List Nat × FlowRunI A R :=
  passAssign { run with flow_arguments := some args, last_requested_indices := [] } body

/-- The indices the claim predicts for a pass with fresh counters: the Nth
call to a name gets N-1, i.e. the count of earlier calls to that name. -/
def canonIndices (seen : List String) : List String → List Nat
| [] => []
| n :: rest => seen.count n :: canonIndices (seen ++ [n]) rest

/-- C6 counterexample: within one started run scope, calling the top-level
`generate` twice with a body that calls task "T" once: the code assigns
index 0 in the first pass and index 1 in the second (the counters survive
across `generate` invocations, being reset only by `FlowRun.start`),
whereas the claim's reset-on-generate semantics would assign 0 again. -/
theorem claim6_second_generate_continues_indices :
    (flowGenerate ((FlowRunI.mk [] [] "" "" false none : FlowRunI Unit Unit).start
        "flow" "run1") () ["T"]).1 = [0]
    ∧ (flowGenerate (flowGenerate ((FlowRunI.mk [] [] "" "" false none :
        FlowRunI Unit Unit).start "flow" "run1") () ["T"]).2 () ["T"]).1 = [1]
    ∧ (flowRegenerate (flowGenerate ((FlowRunI.mk [] [] "" "" false none :
        FlowRunI Unit Unit).start "flow" "run1") () ["T"]).2 ["T"]).1 = [1]
    ∧ (claimGenerate (flowGenerate ((FlowRunI.mk [] [] "" "" false none :
        FlowRunI Unit Unit).start "flow" "run1") () ["T"]).2 () ["T"]).1 = [0] := by
  refine ⟨?_, ?_, ?_, ?_⟩ <;> rfl

theorem passAssign_canon {A R : Type} :
    ∀ (body : List String) (run : FlowRunI A R) (seen : List String),
    (∀ nm : String, dictGet nm run.last_requested_indices =
        if seen.count nm = 0 then none else some (seen.count nm - 1)) →
    (passAssign run body).1 = canonIndices seen body := by
  intro body
  induction body with
  | nil => intro run seen _; rfl
  | cons name rest ih =>
    intro run seen hinv
    have hidx : run.nextIndex name = seen.count name := by
      unfold FlowRunI.nextIndex
      rw [hinv name]
      rcases h0 : seen.count name with _ | c
      · simp
      · simp
    have hcounters :
        ((run.get_next name).2.upsert_node_state (run.get_next name).1).last_requested_indices
          = dictSet name (seen.count name) run.last_requested_indices := by
      simp [FlowRunI.get_next, FlowRunI.upsert_node_state, hidx]
    have hnext := ih ((run.get_next name).2.upsert_node_state (run.get_next name).1)
      (seen ++ [name]) ?_
    · show run.nextIndex name :: (passAssign _ rest).1 = canonIndices seen (name :: rest)
      rw [hidx, hnext]
      rfl
    · intro nm
      rw [hcounters]
      by_cases hnm : nm = name
      · subst hnm
        rw [dictGet_dictSet_self]
        simp
      · rw [dictGet_dictSet_ne _ _ _ _ hnm, hinv nm]
        have : (seen ++ [name]).count nm = seen.count nm := by
          simp [List.count_append, List.count_singleton, hnm]
        rw [this]

/-- C6 amended: the per-task-name counters are reset when a run is started
(`FlowRun.start`, entered by `start_run`), not at each top-level
generate/regenerate call; within the first pass after a start, the Nth
call to a task named T is assigned index N-1, so repeating the same call
structure in a freshly started scope reproduces the same (task_name,
index) identities. -/
theorem claim6_indices_from_start {A R : Type} (run : FlowRunI A R)
    (flow_name run_id : String) (args : A) (body : List String) :
    (flowGenerate (run.start flow_name run_id) args body).1 = canonIndices [] body := by
  apply passAssign_canon
  intro nm
  simp [FlowRunI.start, dictGet]

/-- C10: `FlowRun.get` returns the stored snapshot's content when the key
is present and a brand-new empty NodeState (empty conversation, hash 0)
when absent; an absent-key get creates no table entry, so `get_all` shows
no state at that index (given the table's keys agree with the stored
states' own identity fields, as `upsert_node_state` guarantees); and the
table changes only through `upsert_node_state`, which rewrites exactly the
state's own key and leaves every other key's entry unchanged. -/
theorem claim10_get_fresh_upsert_frame {A R : Type} (run : FlowRunI A R)
    (name : String) (idx : Nat) :
    (dictGet (name, idx) run.node_states = none →
      run.get name idx = ⟨name, idx, ⟨[], [], none⟩, 0⟩)
    ∧ (∀ ns : NodeStateI R, dictGet (name, idx) run.node_states = some ns →
        run.get name idx = ns)
    ∧ ((∀ e ∈ run.node_states, e.1 = (e.2.task_name, e.2.index)) →
        dictGet (name, idx) run.node_states = none →
        ∀ ns ∈ run.get_all name, ns.index ≠ idx)
    ∧ (∀ ns : NodeStateI R,
        dictGet (ns.task_name, ns.index) (run.upsert_node_state ns).node_states = some ns
        ∧ ∀ k : String × Nat, k ≠ (ns.task_name, ns.index) →
            dictGet k (run.upsert_node_state ns).node_states = dictGet k run.node_states) := by
  refine ⟨fun h => ?_, fun ns h => ?_, fun hcons habs ns hmem => ?_, fun ns => ⟨?_, ?_⟩⟩
  · unfold FlowRunI.get
    rw [h]
  · unfold FlowRunI.get
    rw [h]
  · intro hidx
    unfold FlowRunI.get_all at hmem
    rw [List.mem_mergeSort] at hmem
    obtain ⟨e, hef, he2⟩ := List.mem_map.mp hmem
    obtain ⟨hemem, hename⟩ := List.mem_filter.mp hef
    have hkey : e.1 = (ns.task_name, ns.index) := by
      rw [hcons e hemem, he2]
    have hname : ns.task_name = name := by
      have h1 : e.1.1 = name := eq_of_beq hename
      rw [hkey] at h1
      exact h1
    have hkey2 : e.1 = (name, idx) := by
      rw [hkey, hname, hidx]
    apply dictGet_ne_none_of_mem hemem
    rw [hkey2]
    exact habs
  · exact dictGet_dictSet_self _ _ _
  · intro k hk
    exact dictGet_dictSet_ne _ _ _ _ hk

/-- The character for a decimal digit, as Python's `str(int)` emits it. -/
def digitChar (d : Nat) : Char := Char.ofNat (48 + d)

/-- The numeric value of a digit character, as Python's `int(str)` reads it. -/
def digitVal (c : Char) : Nat := c.toNat - 48

/-- Whether a character is one of the decimal digits `int()` accepts. -/
def isDigitChar (c : Char) : Bool := decide (48 ≤ c.toNat) && decide (c.toNat ≤ 57)

theorem digit_facts (d : Nat) (hd : d < 10) :
    isDigitChar (digitChar d) = true ∧ digitVal (digitChar d) = d ∧ digitChar d ≠ ',' := by
  interval_cases d <;> exact ⟨rfl, rfl, by decide⟩

/-- Python's `str` of a natural number: its decimal digits, most
significant first. -/
def natChars (n : Nat) : List Char :=
  if n = 0 then ['0'] else (Nat.digits 10 n).reverse.map digitChar

/-- `str(n)` as a string value. -/
def natStr (n : Nat) : String := String.mk (natChars n)

/-- Python's `int` on a character sequence: every character must be a
decimal digit (and the sequence non-empty), else a ValueError — here
`none`. -/
def parseNat (cs : List Char) : Option Nat :=
  if cs.isEmpty || !(cs.all isDigitChar) then none
  else some (Nat.ofDigits 10 ((cs.map digitVal).reverse))

theorem natChars_facts (n : Nat) :
    ∀ c ∈ natChars n, isDigitChar c = true ∧ c ≠ ',' := by
  intro c hc
  unfold natChars at hc
  by_cases h0 : n = 0
  · rw [if_pos h0] at hc
    rcases List.mem_singleton.mp hc with rfl
    exact ⟨rfl, by decide⟩
  · rw [if_neg h0] at hc
    obtain ⟨d, hd, rfl⟩ := List.mem_map.mp hc
    have hlt : d < 10 :=
      Nat.digits_lt_base (by norm_num) (List.mem_reverse.mp hd)
    exact ⟨(digit_facts d hlt).1, (digit_facts d hlt).2.2⟩

theorem parseNat_natChars (n : Nat) : parseNat (natChars n) = some n := by
  by_cases h0 : n = 0
  · subst h0
    rfl
  · have hne : natChars n ≠ [] := by
      unfold natChars
      rw [if_neg h0]
      simp [Nat.digits_ne_nil_iff_ne_zero.mpr h0]
    have hall : (natChars n).all isDigitChar = true :=
      List.all_eq_true.mpr (fun c hc => (natChars_facts n c hc).1)
    unfold parseNat
    rw [if_neg (by simp [hne, hall])]
    congr 1
    unfold natChars
    rw [if_neg h0]
    rw [List.map_map]
    have hid : ∀ d ∈ (Nat.digits 10 n).reverse, (digitVal ∘ digitChar) d = id d :=
      fun d hd =>
        (digit_facts d (Nat.digits_lt_base (by norm_num) (List.mem_reverse.mp hd))).2.1
    rw [List.map_congr_left hid, List.map_id, List.reverse_reverse, Nat.ofDigits_digits]

/-- Python's `str.split(sep)` for a single-character separator: splitting
the empty string yields one empty part; a separator character closes the
current part. -/
def pysplit (sep : Char) : List Char → List (List Char)
| [] => [[]]
| c :: rest =>
  match pysplit sep rest with
  | [] => [[]]
  | part :: parts =>
    if c = sep then [] :: part :: parts else (c :: part) :: parts

theorem pysplit_cons (sep c : Char) (rest : List Char) :
    pysplit sep (c :: rest) =
      match pysplit sep rest with
      | [] => [[]]
      | part :: parts =>
        if c = sep then [] :: part :: parts else (c :: part) :: parts := rfl

theorem pysplit_ne_nil (sep : Char) (cs : List Char) : pysplit sep cs ≠ [] := by
  cases cs with
  | nil => simp [pysplit]
  | cons c rest =>
    unfold pysplit
    cases pysplit sep rest with
    | nil => simp
    | cons part parts =>
      by_cases h : c = sep <;> simp [h]

theorem pysplit_no_sep (sep : Char) (cs : List Char) (h : sep ∉ cs) :
    pysplit sep cs = [cs] := by
  induction cs with
  | nil => rfl
  | cons c rest ih =>
    have hc : c ≠ sep := fun he => h (he ▸ List.mem_cons_self c rest)
    have hrest : sep ∉ rest := fun he => h (List.mem_cons_of_mem c he)
    unfold pysplit
    rw [ih hrest]
    simp [hc]

theorem pysplit_append_sep (sep : Char) (a b : List Char) (h : sep ∉ a) :
    pysplit sep (a ++ sep :: b) = a :: pysplit sep b := by
  induction a with
  | nil =>
    show pysplit sep (sep :: b) = [] :: pysplit sep b
    rw [pysplit_cons]
    rcases hps : pysplit sep b with _ | ⟨part, parts⟩
    · exact absurd hps (pysplit_ne_nil sep b)
    · simp
  | cons c a ih =>
    have hc : c ≠ sep := fun he => h (he ▸ List.mem_cons_self c a)
    have ha : sep ∉ a := fun he => h (List.mem_cons_of_mem c he)
    show pysplit sep (c :: (a ++ sep :: b)) = (c :: a) :: pysplit sep b
    rw [pysplit_cons, ih ha]
    simp [hc]

/-- `FlowRun.dump` (state.py lines 162-166): Honk when the flow arguments
were never set; otherwise the node-state table as a JSON object mapping
`"{task_name},{index}"` to the stored serialized node state, alongside the
arguments' own dump.  json.dumps/loads round-trips the object, so the
serialized run is modelled by the key-value list itself. -/
def dumpFR {A R : Type} (run : FlowRunI A R) :
    Except String (List (String × NodeStateI R) × A) :=
  match run.flow_arguments with
  | none => .error "Honk: This Flow run has not been executed before"
  | some a => .ok (run.node_states.map (fun e => (e.1.1 ++ "," ++ natStr e.1.2, e.2)), a)

/-- One key of the serialized table parsed back (state.py line 176,
`task_name, index = key.split(",")` then `int(index)`): exactly two
comma-separated parts, the second a decimal number — anything else is a
ValueError. -/
def parseRunKey (k : String) : Except String (String × Nat) :=
  match pysplit ',' k.data with
  | [a, b] =>
    match parseNat b with
    | some i => .ok (String.mk a, i)
    | none => .error "ValueError: invalid literal for int"
  | _ => .error "ValueError: unpack"

/-- The serialized entries parsed back into the keyed table, failing on
the first bad key. -/
def parseEntries {R : Type} :
    List (String × NodeStateI R) → Except String (List ((String × Nat) × NodeStateI R))
| [] => .ok []
| e :: rest =>
  match parseRunKey e.1 with
  | .error msg => .error msg
  | .ok k =>
    match parseEntries rest with
    | .error msg => .error msg
    | .ok tail => .ok ((k, e.2) :: tail)

/-- `FlowRun.load` (state.py lines 168-184): rebuild the node-state table
from the parsed keys, reconstruct the flow arguments via their declared
model, and return a fresh run (empty counters, no identity, no agent). -/
def loadFR {A R : Type} (d : List (String × NodeStateI R) × A) :
    Except String (FlowRunI A R) :=
  match parseEntries d.1 with
  | .error msg => .error msg
  | .ok entries => .ok ⟨entries, [], "", "", false, some d.2⟩

theorem parseRunKey_roundtrip (name : String) (idx : Nat) (h : ',' ∉ name.data) :
    parseRunKey (name ++ "," ++ natStr idx) = .ok (name, idx) := by
  have hdata : (name ++ "," ++ natStr idx).data = name.data ++ ',' :: natChars idx := by
    rw [String.data_append, String.data_append, List.append_assoc]
    rfl
  have hnocomma : ',' ∉ natChars idx := by
    intro hmem
    exact absurd rfl (natChars_facts idx ',' hmem).2
  unfold parseRunKey
  rw [hdata, pysplit_append_sep _ _ _ h, pysplit_no_sep _ _ hnocomma]
  show (match parseNat (natChars idx) with
    | some i => Except.ok (String.mk name.data, i)
    | none => Except.error "ValueError: invalid literal for int") = Except.ok (name, idx)
  rw [parseNat_natChars idx]

theorem parseEntries_roundtrip {R : Type}
    (l : List ((String × Nat) × NodeStateI R)) (h : ∀ e ∈ l, ',' ∉ e.1.1.data) :
    parseEntries (l.map (fun e => (e.1.1 ++ "," ++ natStr e.1.2, e.2))) = .ok l := by
  induction l with
  | nil => rfl
  | cons e rest ih =>
    have hkey := parseRunKey_roundtrip e.1.1 e.1.2 (h e (List.mem_cons_self e rest))
    have htail := ih (fun x hx => h x (List.mem_cons_of_mem e hx))
    show parseEntries ((e.1.1 ++ "," ++ natStr e.1.2, e.2) ::
      rest.map (fun e => (e.1.1 ++ "," ++ natStr e.1.2, e.2))) = .ok (e :: rest)
    unfold parseEntries
    rw [hkey, htail]

/-- C5: for a run whose flow arguments have been set and whose task names
contain no comma (true of Python function names), `load(dump(run))`
succeeds and reproduces the identical node-state table — the same
(task_name, index) keys bound to the same stored node-state snapshots —
and flow arguments equal to the original's. -/
theorem claim5_dump_load_roundtrip {A R : Type} (run : FlowRunI A R) (args : A)
    (hargs : run.flow_arguments = some args)
    (hnames : ∀ e ∈ run.node_states, ',' ∉ e.1.1.data) :
    ∃ d, dumpFR run = .ok d
      ∧ ∃ run2, loadFR d = .ok run2
        ∧ run2.node_states = run.node_states
        ∧ run2.flow_arguments = some args := by
  refine ⟨(run.node_states.map (fun e => (e.1.1 ++ "," ++ natStr e.1.2, e.2)), args),
    ?_, ⟨run.node_states, [], "", "", false, some args⟩, ?_, rfl, rfl⟩
  · unfold dumpFR
    rw [hargs]
  · unfold loadFR
    rw [parseEntries_roundtrip run.node_states hnames]

/-- C5 witness: the round-trip at a concrete run — one stored node state
for task "double" at index 0 and flow arguments already set. -/
theorem claim5_dump_load_roundtrip_witness :
    ∃ d, dumpFR (⟨[(("double", 0), ⟨"double", 0, ⟨[], [5], none⟩, 42⟩)],
        [], "", "", false, some ()⟩ : FlowRunI Unit Nat) = .ok d
      ∧ ∃ run2, loadFR d = .ok run2
        ∧ run2.node_states = [(("double", 0), ⟨"double", 0, ⟨[], [5], none⟩, 42⟩)]
        ∧ run2.flow_arguments = some () :=
  claim5_dump_load_roundtrip
    (⟨[(("double", 0), ⟨"double", 0, ⟨[], [5], none⟩, 42⟩)],
      [], "", "", false, some ()⟩ : FlowRunI Unit Nat) () rfl (by decide)

end Goose
